import Mathlib

/-!
# Verification of the VARTA acoustic drone detector firmware

Shallow embedding of the firmware core (spectrogram engine, direction
estimator, alert actuator, detection orchestrator) from
`src/firmware/include/*.h` and `src/firmware/src/main.cpp`, together with
proofs of the behavioural properties stated in the specification.

Conventions:
* `millis()` timestamps are natural numbers; traces supply monotone times,
  so `unsigned long` subtraction `now - t0` is modelled by truncated `Nat`
  subtraction under the hypothesis `t0 ≤ now` where it matters.
* `float`/`double` quantities in the DSP code are modelled as real numbers;
  confidence values handled by the orchestrator are modelled as rationals
  (every IEEE float is a rational, and only order comparisons are used).
* C `for` loops accumulating a sum are modelled by `forSum` (a fold over
  `List.range'`), related to `Finset` sums by lemmas.
-/

namespace Varta

/-! ## Configuration constants (src/firmware/include/config.h) -/


def SAMPLE_RATE : ℕ := 44100

def FFT_SIZE : ℕ := 2048

def HOP_SIZE : ℕ := 512

def MEL_BINS : ℕ := 128

def SPEC_TIME_FRAMES : ℕ := 32

def CONFIDENCE_THRESHOLD : ℚ := 3/4

def ALERT_HOLDOFF_MS : ℕ := 2000

def ALERT_DURATION_MS : ℤ := 500

def DETECTION_WINDOW_MS : ℕ := 4000

def MIN_DETECTIONS_FOR_ALERT : ℕ := 3

def DIRECTION_SMOOTHING : ℝ := 0.3

def MIN_CORRELATION : ℝ := 0.5

/-! ## Detection orchestrator (src/firmware/src/main.cpp, `loop`)

State touched by the detection branch of `loop` for `STATE_SCAN` /
`STATE_ALERT`: the system state, `detectionCount`, `lastDetectionTime`,
`lastAlertTime`.  One `loopStep` is one execution of the hop-gated block at
main.cpp lines 168-217, with the inference result `conf` supplied as an
input (the inference engine is an external collaborator).  The returned
`Bool` records whether the alert branch fired on this cycle. -/


inductive SysState
  | scan | alert | monitor | calibrate | lowBattery | error
  deriving DecidableEq, Repr

structure DetectorState where
  sysState : SysState
  detectionCount : ℕ
  lastDetectionTime : ℕ
  lastAlertTime : ℕ
  deriving DecidableEq, Repr

/-- One hop-gated processing cycle of `loop` (main.cpp lines 168-217):
detection-count update, alert trigger check, then decay check. -/
def loopStep (s : DetectorState) (now : ℕ) (conf : ℚ) : DetectorState × Bool :=
  -- lines 178-192: qualifying detection
  let cnt := if CONFIDENCE_THRESHOLD ≤ conf then s.detectionCount + 1 else s.detectionCount
  let lastDet := if CONFIDENCE_THRESHOLD ≤ conf then now else s.lastDetectionTime
  -- lines 194-208: alert trigger check
  let fired := decide (MIN_DETECTIONS_FOR_ALERT ≤ cnt ∧ ALERT_HOLDOFF_MS ≤ now - s.lastAlertTime)
  let st := if fired then SysState.alert else s.sysState
  let lastAlert := if fired then now else s.lastAlertTime
  -- lines 210-216: decay of the detection count
  let decayed := decide (DETECTION_WINDOW_MS < now - lastDet)
  let cnt2 := if decayed then 0 else cnt
  let st2 := if decayed ∧ st = SysState.alert then SysState.scan else st
  (⟨st2, cnt2, lastDet, lastAlert⟩, fired)

/-- Run a sequence of processing cycles; each list entry is a pair
`(millis timestamp, inference confidence)`.  Returns the final state and
the timestamps of the cycles on which the alert branch fired. -/
def runCycles (s : DetectorState) : List (ℕ × ℚ) → DetectorState × List ℕ
  | [] => (s, [])
  | c :: cs =>
    let r := loopStep s c.1 c.2
    let rest := runCycles r.1 cs
    (rest.1, (if r.2 then [c.1] else []) ++ rest.2)

/-! ### C2: detection-count accumulation and decay -/

/-- Initial orchestrator state after `setup()`: `STATE_SCAN`, zero counters. -/
def initState : DetectorState := ⟨SysState.scan, 0, 0, 0⟩

/-- Three qualifying cycles (confidence 1 ≥ 3/4), 3900 ms apart. -/
def gappedTrace : List (ℕ × ℚ) := [(0, 1), (3900, 1), (7800, 1)]

/-! ## Alert manager (src/firmware/include/alert_manager.h)

The non-blocking pattern player: `update` / `triggerAlert` /
`triggerHapticOnly` / `stopAlert`.  Digital outputs are booleans
(`true` = HIGH).  The blocking tone path (`playTone`, `playPattern`) is not
modelled (startup/calibration only). -/


structure AlertState where
  alertActive : Bool
  hapticOnly : Bool
  alertStartTime : ℕ
  alertDuration : ℤ
  pulseState : Bool
  lastPulseTime : ℕ
  pulseOnTime : ℤ
  pulseOffTime : ℤ
  buzzer : Bool
  vibration : Bool
  deriving DecidableEq, Repr

/-! ## Rolling spectrogram buffer (src/firmware/src/main.cpp)

`processAudio` (lines 421-431) writes one Feature Row at the write cursor
`spectrogramIndex` and advances the cursor modulo `SPEC_TIME_FRAMES`;
`runInference` (lines 443-453) assembles the input tensor by reading row
`t` from slot `(spectrogramIndex + t) % SPEC_TIME_FRAMES`.  The row type is
abstract (a row is `MEL_BINS` floats; its contents are irrelevant to the
ordering claim). -/


structure SpectrogramBuffer (Row : Type) where
  melSpectrogram : ℕ → Row
  spectrogramIndex : ℕ

/-- `processAudio`: store the new row at the cursor, advance the cursor
modulo `SPEC_TIME_FRAMES`. -/
def processAudio {Row : Type} (s : SpectrogramBuffer Row) (row : Row) :
    SpectrogramBuffer Row :=
  ⟨Function.update s.melSpectrogram s.spectrogramIndex row,
    (s.spectrogramIndex + 1) % SPEC_TIME_FRAMES⟩

/-- The `t`-th row of the tensor assembled by `runInference`. -/
def inferenceTensorRow {Row : Type} (s : SpectrogramBuffer Row) (t : ℕ) : Row :=
  s.melSpectrogram ((s.spectrogramIndex + t) % SPEC_TIME_FRAMES)

/-- A sequence of `processAudio` calls, one per hop. -/
def processAll {Row : Type} (s : SpectrogramBuffer Row) (rows : List Row) :
    SpectrogramBuffer Row :=
  rows.foldl processAudio s

/-! ## Loop-sum infrastructure

A C `for (i = a; i < b; i++) acc += f(i);` accumulation is modelled by a
left fold over `List.range'`, and related to `Finset` sums. -/

/-- The value accumulated by a C counting loop from `a` (inclusive) to `b`
(exclusive). -/
def forSum (a b : ℕ) (f : ℕ → ℝ) : ℝ :=
  (List.range' a (b - a)).foldl (fun acc i => acc + f i) 0

/-! ## Direction estimator (src/firmware/include/direction_estimator.h)

`crossCorrelate` (lines 76-124): normalized cross-correlation over lags
`[-maxLag, maxLag]` with `maxLag = min(ceil(maxDelaySamples) + 5,
numSamples/4)`, tracking the lag of maximum correlation; the "subsample
interpolation" block is a no-op in the source, so the returned lag is the
integer winner.  Returns `(refinedLag, confidence)`. -/

/-- `maxLag` as computed at direction_estimator.h lines 77-78
(`_maxDelaySamples` is `md`). -/
noncomputable def xcMaxLag (md : ℝ) (n : ℕ) : ℤ :=
  min (⌈md⌉ + 5) ((n : ℤ) / 4)

/-- The lags `-maxLag, …, maxLag` visited by the outer loop (empty when
`maxLag` is negative, matching the C loop bounds). -/
noncomputable def xcLags (md : ℝ) (n : ℕ) : List ℤ :=
  (List.range (2 * xcMaxLag md n + 1).toNat).map fun (j : ℕ) => -(xcMaxLag md n) + (j : ℤ)

/-- Correlation accumulator at one lag (the `corr +=` line, guarded by the
`j` bounds check). -/
def xcNum (sig1 sig2 : ℕ → ℝ) (n maxLag : ℕ) (lag : ℤ) : ℝ :=
  forSum maxLag (n - maxLag) fun i =>
    if 0 ≤ (i : ℤ) + lag ∧ (i : ℤ) + lag < (n : ℤ) then
      sig1 i * sig2 ((i : ℤ) + lag).toNat
    else 0

/-- `norm1` accumulator at one lag. -/
def xcNorm1 (sig1 : ℕ → ℝ) (n maxLag : ℕ) (lag : ℤ) : ℝ :=
  forSum maxLag (n - maxLag) fun i =>
    if 0 ≤ (i : ℤ) + lag ∧ (i : ℤ) + lag < (n : ℤ) then sig1 i * sig1 i else 0

/-- `norm2` accumulator at one lag. -/
def xcNorm2 (sig2 : ℕ → ℝ) (n maxLag : ℕ) (lag : ℤ) : ℝ :=
  forSum maxLag (n - maxLag) fun i =>
    if 0 ≤ (i : ℤ) + lag ∧ (i : ℤ) + lag < (n : ℤ) then
      sig2 ((i : ℤ) + lag).toNat * sig2 ((i : ℤ) + lag).toNat
    else 0

/-- Normalized correlation at one lag (zero when the norm is at or below
the numerical floor `1e-10`). -/
noncomputable def normCorrAtLag (sig1 sig2 : ℕ → ℝ) (n maxLag : ℕ) (lag : ℤ) : ℝ :=
  let norm := Real.sqrt (xcNorm1 sig1 n maxLag lag * xcNorm2 sig2 n maxLag lag)
  if 1e-10 < norm then xcNum sig1 sig2 n maxLag lag / norm else 0

/-- `DirectionEstimator::crossCorrelate`: returns `(delay in samples,
confidence)`.  `md` is the configured `_maxDelaySamples`. -/
noncomputable def crossCorrelate (md : ℝ) (sig1 sig2 : ℕ → ℝ) (n : ℕ) : ℝ × ℝ :=
  let r := (xcLags md n).foldl
    (fun acc lag =>
      let corr := normCorrAtLag sig1 sig2 n (xcMaxLag md n).toNat lag
      if acc.1 < corr then (corr, lag) else acc)
    ((-1e10 : ℝ), (0 : ℤ))
  (((r.2 : ℤ) : ℝ), r.1)

/-- Arduino `constrain(amt, low, high)`:
`amt < low ? low : (amt > high ? high : amt)`. -/
noncomputable def cConstrain (x lo hi : ℝ) : ℝ :=
  if x < lo then lo else if hi < x then hi else x

/-- C `atan2(y, x)`, in radians in `(-π, π]`, modelled by the argument of
the complex number `x + y·i`. -/
noncomputable def atan2 (y x : ℝ) : ℝ :=
  Complex.arg ⟨x, y⟩

/-- `DirectionEstimator::tdoaToAzimuth` (direction_estimator.h lines
126-173): lags (in samples) to an azimuth in degrees in `[0, 360)`. -/
noncomputable def tdoaToAzimuth (micSpacingM speedOfSound : ℝ) (sampleRate : ℕ)
    (tdoa12 tdoa14 tdoa32 tdoa34 : ℝ) : ℝ :=
  let dt12 := tdoa12 / (sampleRate : ℝ)
  let dt14 := tdoa14 / (sampleRate : ℝ)
  let dt32 := tdoa32 / (sampleRate : ℝ)
  let dt34 := tdoa34 / (sampleRate : ℝ)
  let dtX := (dt12 + dt34) / 2
  let dtY := (dt14 + dt32) / 2
  let sinX := cConstrain ((speedOfSound * dtX) / micSpacingM) (-1) 1
  let sinY := cConstrain ((speedOfSound * dtY) / micSpacingM) (-1) 1
  let azimuth := atan2 sinX (-sinY) * 180 / Real.pi
  if azimuth < 0 then azimuth + 360 else azimuth

/-- The estimator's mutable state (`_lastConfidence`,
`_smoothedDirection`). -/
structure DirectionState where
  lastConfidence : ℝ
  smoothedDirection : ℝ

/-- The mean of the four pairwise correlation confidences computed by
`estimateDirection` (direction_estimator.h line 185). -/
noncomputable def meanConfidence (md : ℝ) (mic1 mic2 mic3 mic4 : ℕ → ℝ) (n : ℕ) : ℝ :=
  ((crossCorrelate md mic1 mic2 n).2 + (crossCorrelate md mic1 mic4 n).2 +
    (crossCorrelate md mic3 mic2 n).2 + (crossCorrelate md mic3 mic4 n).2) / 4

/-- The azimuth `estimateDirection` computes from the four pairwise lags
(direction_estimator.h line 194). -/
noncomputable def estimatedAzimuth (md micSpacingM speedOfSound : ℝ) (sampleRate : ℕ)
    (mic1 mic2 mic3 mic4 : ℕ → ℝ) (n : ℕ) : ℝ :=
  tdoaToAzimuth micSpacingM speedOfSound sampleRate
    (crossCorrelate md mic1 mic2 n).1 (crossCorrelate md mic1 mic4 n).1
    (crossCorrelate md mic3 mic2 n).1 (crossCorrelate md mic3 mic4 n).1

/-- Exponential smoothing with 0/360 wraparound handling
(direction_estimator.h lines 196-206): blend azimuth `a` into the running
estimate `s`. -/
noncomputable def blendDirection (s a : ℝ) : ℝ :=
  let diff0 := a - s
  let diff1 := if 180 < diff0 then diff0 - 360 else diff0
  let diff := if diff1 < -180 then diff1 + 360 else diff1
  let sm0 := s + 0.3 * diff
  let sm1 := if sm0 < 0 then sm0 + 360 else sm0
  if 360 ≤ sm1 then sm1 - 360 else sm1

/-- `DirectionEstimator::estimateDirection` (direction_estimator.h lines
175-214): returns the updated state and the returned azimuth. -/
noncomputable def estimateDirection (md micSpacingM speedOfSound : ℝ) (sampleRate : ℕ)
    (st : DirectionState) (mic1 mic2 mic3 mic4 : ℕ → ℝ) (n : ℕ) :
    DirectionState × ℝ :=
  let conf := meanConfidence md mic1 mic2 mic3 mic4 n
  if conf < 0.5 then ({ st with lastConfidence := conf }, st.smoothedDirection)
  else
    let sm2 := blendDirection st.smoothedDirection
      (estimatedAzimuth md micSpacingM speedOfSound sampleRate mic1 mic2 mic3 mic4 n)
    (⟨conf, sm2⟩, sm2)

/-- The signed shortest angular difference, wrapping through ±180°, as the
code computes it (exact for inputs in `(-540, 540)`). -/
noncomputable def wrapDiff (d : ℝ) : ℝ :=
  if 180 < d then d - 360 else if d < -180 then d + 360 else d

/-- Angular distance between two bearings. -/
noncomputable def angDist (x y : ℝ) : ℝ := |wrapDiff (x - y)|

/-! ## Audio processor (src/firmware/include/audio_processor.h)

`createMelFilterbank` (lines 104-152), `computeMelSpectrogram` (lines
154-189).  The external FFT library call (`compute` + `complexToMagnitude`)
is modelled by the magnitude of the discrete Fourier transform. -/

/-- `AudioProcessor::hzToMel` (line 96): `2595·log10(1 + hz/700)`. -/
noncomputable def hzToMel (hz : ℝ) : ℝ :=
  2595 * Real.logb 10 (1 + hz / 700)

/-- `AudioProcessor::melToHz` (line 100): `700·(10^(mel/2595) - 1)`. -/
noncomputable def melToHz (mel : ℝ) : ℝ :=
  700 * ((10 : ℝ) ^ (mel / 2595) - 1)

/-- The Hann window built by `createHannWindow` (line 90):
`0.5·(1 - cos(2πi/(N-1)))`. -/
noncomputable def hannWindow (N i : ℕ) : ℝ :=
  0.5 * (1 - Real.cos (2 * Real.pi * i / ((N : ℝ) - 1)))

/-- C cast `(int)(x)`: truncation toward zero. -/
noncomputable def cTruncInt (x : ℝ) : ℤ :=
  if 0 ≤ x then ⌊x⌋ else -⌊-x⌋

/-- Arduino `constrain` on integers. -/
def cConstrainInt (v lo hi : ℤ) : ℤ :=
  if v < lo then lo else if hi < v then hi else v

/-- `melPoints[i]` of `createMelFilterbank` (lines 117-119): the `i`-th
equally spaced mel point converted back to Hz. -/
noncomputable def melPointHz (sr B : ℕ) (i : ℕ) : ℝ :=
  melToHz (hzToMel 0 + (hzToMel ((sr : ℝ) / 2) - hzToMel 0) * i / ((B : ℝ) + 1))

/-- `fftBinPoints[i]` of `createMelFilterbank` (lines 120-121): the mel
point mapped to an FFT bin index, clamped to `[0, numFftBins - 1]`. -/
noncomputable def fftBinPoint (sr N B : ℕ) (i : ℕ) : ℤ :=
  cConstrainInt
    (cTruncInt ((melPointHz sr B i / ((sr : ℝ) / 2)) * ((N / 2 + 1 : ℕ) : ℝ)))
    0 (((N / 2 + 1 : ℕ) : ℤ) - 1)

/-- The weight the triangular-filter loops (lines 128-148) leave at row `m`,
column `k`: the rising slope writes `[fStart, fCenter)`, the falling slope
writes `[fCenter, fEnd]`, each guarded against a zero-width slope;
everything else keeps the initial zero. -/
noncomputable def melWeight (sr N B : ℕ) (m k : ℕ) : ℝ :=
  let fS := fftBinPoint sr N B m
  let fC := fftBinPoint sr N B (m + 1)
  let fE := fftBinPoint sr N B (m + 2)
  if fS ≤ (k : ℤ) ∧ (k : ℤ) < fC then
    if fC ≠ fS then (((k : ℤ) - fS : ℤ) : ℝ) / ((fC - fS : ℤ) : ℝ) else 0
  else if fC ≤ (k : ℤ) ∧ (k : ℤ) ≤ fE then
    if fE ≠ fC then ((fE - (k : ℤ) : ℤ) : ℝ) / ((fE - fC : ℤ) : ℝ) else 0
  else 0

/-- The windowed, zero-padded frame prepared at lines 157-165. -/
noncomputable def windowedFrame (N numSamples : ℕ) (x : ℕ → ℝ) (i : ℕ) : ℝ :=
  if i < numSamples then x i * hannWindow N i else 0

/-- Magnitude spectrum of the (library) forward transform at bin `k`. -/
noncomputable def dftMag (N : ℕ) (v : ℕ → ℝ) (k : ℕ) : ℝ :=
  Real.sqrt ((∑ i in Finset.range N, v i * Real.cos (2 * Real.pi * k * i / N)) ^ 2 +
    (∑ i in Finset.range N, v i * Real.sin (2 * Real.pi * k * i / N)) ^ 2)

/-- The filterbank projection loop at lines 173-177 for band `m`. -/
noncomputable def melBandSum (sr N B : ℕ) (frame : ℕ → ℝ) (m : ℕ) : ℝ :=
  forSum 0 (N / 2 + 1) fun k => melWeight sr N B m k * dftMag N frame k

/-- `AudioProcessor::computeMelSpectrogram` (lines 154-189), output band
`m`: dB conversion with the `1e-10` floor, then noise-floor subtraction
(floored at zero) only for bands with a non-zero stored noise floor. -/
noncomputable def computeMelSpectrogram (sr N B : ℕ) (noiseFloor : ℕ → ℝ)
    (audioSamples : ℕ → ℝ) (numSamples : ℕ) (m : ℕ) : ℝ :=
  let s := max (melBandSum sr N B (windowedFrame N numSamples audioSamples) m) 1e-10
  let dB := 20 * Real.logb 10 s
  if noiseFloor m ≠ 0 then max (dB - noiseFloor m) 0 else dB

/-! ### C4: correlation confidence range -/

/-! ### C5: low-confidence fallback -/

/-! ### C6: circular smoothing invariant -/

/-! ### C3: mel spectrogram formula -/

/-! ### C7: filterbank safety -/

namespace AlertManager

/-- Constructor defaults plus `begin` (both outputs driven LOW). -/
def initAlertState : AlertState :=
  ⟨false, false, 0, 0, false, 0, 100, 100, false, false⟩

/-- `AlertManager::stopAlert` (alert_manager.h lines 150-154). -/
def stopAlert (s : AlertState) : AlertState :=
  { s with alertActive := false, buzzer := false, vibration := false }

/-- `AlertManager::update` (alert_manager.h lines 82-112) at time `now`. -/
def update (s : AlertState) (now : ℕ) : AlertState :=
  if s.alertActive = false then s
  else if 0 < s.alertDuration ∧ s.alertDuration.toNat ≤ now - s.alertStartTime then
    stopAlert s
  else if (if s.pulseState then s.pulseOnTime.toNat else s.pulseOffTime.toNat) ≤
      now - s.lastPulseTime then
    { s with
      pulseState := !s.pulseState
      lastPulseTime := now
      buzzer := if !s.pulseState then (if s.hapticOnly then s.buzzer else true) else false
      vibration := (!s.pulseState : Bool) }
  else s

/-- `AlertManager::triggerAlert` (alert_manager.h lines 114-131). -/
def triggerAlert (s : AlertState) (now : ℕ) (durationMs : ℤ) : AlertState :=
  { s with
    alertActive := true
    hapticOnly := false
    alertStartTime := now
    alertDuration := durationMs
    pulseState := true
    lastPulseTime := now
    buzzer := true
    vibration := true
    pulseOnTime := 100
    pulseOffTime := 50 }

/-- `AlertManager::triggerHapticOnly` (alert_manager.h lines 133-148). -/
def triggerHapticOnly (s : AlertState) (now : ℕ) (durationMs : ℤ) : AlertState :=
  { s with
    alertActive := true
    hapticOnly := true
    alertStartTime := now
    alertDuration := durationMs
    pulseState := true
    lastPulseTime := now
    vibration := true
    pulseOnTime := 150
    pulseOffTime := 100 }

/-- A sequence of `update` calls at the given times. -/
def updates (s : AlertState) (ts : List ℕ) : AlertState :=
  ts.foldl update s

end AlertManager

/-! ## Theorems -/

theorem loopStep_lastAlertTime_of_fired (s : DetectorState) (now : ℕ) (conf : ℚ)
    (h : (loopStep s now conf).2 = true) :
    (loopStep s now conf).1.lastAlertTime = now := by
  simp only [loopStep, decide_eq_true_eq] at h ⊢
  simp [h]

theorem loopStep_not_fired (s : DetectorState) (now : ℕ) (conf : ℚ)
    (h : now - s.lastAlertTime < ALERT_HOLDOFF_MS) :
    (loopStep s now conf).2 = false ∧
      (loopStep s now conf).1.lastAlertTime = s.lastAlertTime := by
  simp only [loopStep, decide_eq_true_eq]
  have : ¬ (MIN_DETECTIONS_FOR_ALERT ≤
      (if CONFIDENCE_THRESHOLD ≤ conf then s.detectionCount + 1 else s.detectionCount) ∧
      ALERT_HOLDOFF_MS ≤ now - s.lastAlertTime) := by
    rintro ⟨-, h2⟩
    omega
  simp [this]

/-- After a cycle whose alert timestamp is `t1`, a run of further cycles
whose timestamps all lie in `[t1, t1 + ALERT_HOLDOFF_MS)` fires no alert and
leaves the alert timestamp at `t1`. -/
theorem holdoff_run (s : DetectorState) (cycles : List (ℕ × ℚ))
    (t1 : ℕ) (hA : s.lastAlertTime = t1)
    (hT : ∀ c ∈ cycles, t1 ≤ c.1 ∧ c.1 < t1 + ALERT_HOLDOFF_MS) :
    (runCycles s cycles).2 = [] ∧ (runCycles s cycles).1.lastAlertTime = t1 := by
  induction cycles generalizing s with
  | nil => simpa [runCycles] using hA
  | cons c cs ih =>
    obtain ⟨hle, hlt⟩ := hT c (List.mem_cons_self c cs)
    have hstep := loopStep_not_fired s c.1 c.2 (by omega)
    have ih2 := ih (loopStep s c.1 c.2).1 (hstep.2.trans hA)
      (fun d hd => hT d (List.mem_cons_of_mem c hd))
    simp [runCycles, hstep.1, ih2.1, ih2.2]

/-- **C1**: in the orchestrator loop, once an alert has been triggered (the
alert timestamp stamped at `t1`), no second alert trigger occurs on any
subsequent cycle processed before `ALERT_HOLDOFF_MS` (2000 ms) has elapsed
since `t1`, whatever the inference confidences (so even if `detectionCount`
stays at or above `MIN_DETECTIONS_FOR_ALERT` on every intervening cycle). -/
theorem alert_holdoff_no_retrigger (s : DetectorState) (t1 : ℕ) (conf : ℚ)
    (cycles : List (ℕ × ℚ))
    (hfire : (loopStep s t1 conf).2 = true)
    (hT : ∀ c ∈ cycles, t1 ≤ c.1 ∧ c.1 < t1 + ALERT_HOLDOFF_MS) :
    (loopStep s t1 conf).1.lastAlertTime = t1 ∧
      (runCycles (loopStep s t1 conf).1 cycles).2 = [] := by
  have hstamp := loopStep_lastAlertTime_of_fired s t1 conf hfire
  exact ⟨hstamp, (holdoff_run _ cycles t1 hstamp hT).1⟩

/-- Witness for C1: a concrete firing cycle at t=5000 followed by a cycle at
t=6000 with confidence 1, which does not retrigger. -/
theorem alert_holdoff_no_retrigger_witness :
    (loopStep ⟨SysState.scan, 3, 5000, 0⟩ 5000 0 : DetectorState × Bool).2 = true ∧
      ((loopStep ⟨SysState.scan, 3, 5000, 0⟩ 5000 0).1.lastAlertTime = 5000 ∧
        (runCycles (loopStep ⟨SysState.scan, 3, 5000, 0⟩ 5000 0).1 [(6000, 1)]).2 = []) := by
  have hfire : (loopStep ⟨SysState.scan, 3, 5000, 0⟩ 5000 0 : DetectorState × Bool).2 = true := by
    norm_num [loopStep, CONFIDENCE_THRESHOLD, MIN_DETECTIONS_FOR_ALERT, ALERT_HOLDOFF_MS,
      DETECTION_WINDOW_MS]
  exact ⟨hfire, alert_holdoff_no_retrigger ⟨SysState.scan, 3, 5000, 0⟩ 5000 0 [(6000, 1)]
    hfire (by norm_num [ALERT_HOLDOFF_MS])⟩

/-- Counterexample to C2 as stated: every cycle of `gappedTrace` qualifies
and `detectionCount` reaches `MIN_DETECTIONS_FOR_ALERT` after the trace,
yet no interval of length `DETECTION_WINDOW_MS` contains all three
qualifying cycles (they span 7800 ms > 4000 ms): each consecutive gap is
below the window, so no intervening cycle ever resets the count. -/
theorem detection_window_counterexample :
    (∀ c ∈ gappedTrace, CONFIDENCE_THRESHOLD ≤ c.2) ∧
      (runCycles initState gappedTrace).1.detectionCount = MIN_DETECTIONS_FOR_ALERT ∧
      ∀ a : ℕ, ¬ ∀ c ∈ gappedTrace, a ≤ c.1 ∧ c.1 ≤ a + DETECTION_WINDOW_MS := by
  refine ⟨?_, ?_, ?_⟩
  · intro c hc
    fin_cases hc <;> norm_num [CONFIDENCE_THRESHOLD]
  · norm_num [runCycles, loopStep, initState, gappedTrace, CONFIDENCE_THRESHOLD,
      MIN_DETECTIONS_FOR_ALERT, ALERT_HOLDOFF_MS, DETECTION_WINDOW_MS]
  · intro a h
    have h0 := h (0, 1) (by simp [gappedTrace])
    have h2 := h (7800, 1) (by simp [gappedTrace])
    simp only [DETECTION_WINDOW_MS] at h0 h2
    omega

/-- `detectionCount` grows by at most one per cycle and only on qualifying
cycles: after any run it is bounded by the initial count plus the number of
qualifying cycles. -/
theorem count_le_qualifying (s : DetectorState) (cycles : List (ℕ × ℚ)) :
    (runCycles s cycles).1.detectionCount ≤
      s.detectionCount + (cycles.filter fun c => CONFIDENCE_THRESHOLD ≤ c.2).length := by
  induction cycles generalizing s with
  | nil => simp [runCycles]
  | cons c cs ih =>
    have hstep : (loopStep s c.1 c.2).1.detectionCount ≤
        s.detectionCount + (if CONFIDENCE_THRESHOLD ≤ c.2 then 1 else 0) := by
      by_cases hq : CONFIDENCE_THRESHOLD ≤ c.2
      · simp [loopStep, hq, DETECTION_WINDOW_MS]
      · simp only [loopStep, hq, if_false, if_neg hq]
        split_ifs <;> simp
    have := ih (loopStep s c.1 c.2).1
    simp only [runCycles, List.filter_cons]
    by_cases hq : CONFIDENCE_THRESHOLD ≤ c.2 <;> simp [hq] at hstep ⊢ <;> omega

/-- A processed non-qualifying cycle that observes a gap exceeding the
window resets the count to zero and leaves the system out of `ALERT`
(in particular `ALERT` falls back to `SCAN`). -/
theorem decay_resets (s : DetectorState) (now : ℕ) (conf : ℚ)
    (hq : ¬ CONFIDENCE_THRESHOLD ≤ conf)
    (hw : DETECTION_WINDOW_MS < now - s.lastDetectionTime) :
    (loopStep s now conf).1.detectionCount = 0 ∧
      (loopStep s now conf).1.sysState ≠ SysState.alert ∧
      (s.sysState = SysState.alert → (loopStep s now conf).1.sysState = SysState.scan) := by
  simp only [loopStep, if_neg hq, decide_eq_true_eq]
  have hd : DETECTION_WINDOW_MS < now - s.lastDetectionTime := hw
  split_ifs with h1 h2 h3 <;> simp_all

/-- **C2 (amended)**: `detectionCount` reaches `MIN_DETECTIONS_FOR_ALERT`
(3) only after at least that many cycles with confidence ≥
`CONFIDENCE_THRESHOLD` since the count last stood at its starting value —
the count is bounded by the starting count plus the number of qualifying
cycles.  The qualifying cycles need not fit inside a single
`DETECTION_WINDOW_MS` interval; it suffices that no processed cycle in
between observes a gap longer than the window, since any non-qualifying
cycle processed more than `DETECTION_WINDOW_MS` after the last detection
resets the count to zero and drops `ALERT` back to `SCAN`. -/
theorem detection_count_amended :
    (∀ (s : DetectorState) (cycles : List (ℕ × ℚ)),
      (runCycles s cycles).1.detectionCount ≤
        s.detectionCount + (cycles.filter fun c => CONFIDENCE_THRESHOLD ≤ c.2).length) ∧
    (∀ (s : DetectorState) (now : ℕ) (conf : ℚ), ¬ CONFIDENCE_THRESHOLD ≤ conf →
      DETECTION_WINDOW_MS < now - s.lastDetectionTime →
      (loopStep s now conf).1.detectionCount = 0 ∧
        (loopStep s now conf).1.sysState ≠ SysState.alert ∧
        (s.sysState = SysState.alert → (loopStep s now conf).1.sysState = SysState.scan)) :=
  ⟨count_le_qualifying, decay_resets⟩

/-- Witness for C2 (amended): a stale `ALERT` state with count 5 processed
at t=9000 with confidence 0 resets to count 0 and `SCAN`. -/
theorem detection_count_amended_witness :
    (loopStep ⟨SysState.alert, 5, 0, 0⟩ 9000 0 : DetectorState × Bool).1.detectionCount = 0 ∧
      (loopStep ⟨SysState.alert, 5, 0, 0⟩ 9000 0).1.sysState = SysState.scan := by
  have h := detection_count_amended.2 ⟨SysState.alert, 5, 0, 0⟩ 9000 0
    (by norm_num [CONFIDENCE_THRESHOLD]) (by norm_num [DETECTION_WINDOW_MS])
  exact ⟨h.1, h.2.2 rfl⟩

theorem processAll_append {Row : Type} (s : SpectrogramBuffer Row) (l1 l2 : List Row) :
    processAll s (l1 ++ l2) = processAll (processAll s l1) l2 :=
  List.foldl_append _ _ _ _

theorem processAll_index {Row : Type} (s : SpectrogramBuffer Row) (rows : List Row)
    (h : s.spectrogramIndex < SPEC_TIME_FRAMES) :
    (processAll s rows).spectrogramIndex =
      (s.spectrogramIndex + rows.length) % SPEC_TIME_FRAMES := by
  induction rows generalizing s with
  | nil => simp [processAll, Nat.mod_eq_of_lt h]
  | cons r rows ih =>
    have h2 : (processAudio s r).spectrogramIndex < SPEC_TIME_FRAMES :=
      Nat.mod_lt _ (by norm_num [SPEC_TIME_FRAMES])
    have := ih (processAudio s r) h2
    simp only [processAll, List.foldl_cons] at this ⊢
    rw [this]
    simp only [processAudio, SPEC_TIME_FRAMES, List.length_cons]
    omega

/-- Slots not written by any of the appended rows keep their contents. -/
theorem processAll_untouched {Row : Type} (s : SpectrogramBuffer Row) (rows : List Row)
    (k : ℕ) (h : s.spectrogramIndex < SPEC_TIME_FRAMES)
    (hk : ∀ j < rows.length, (s.spectrogramIndex + j) % SPEC_TIME_FRAMES ≠ k) :
    (processAll s rows).melSpectrogram k = s.melSpectrogram k := by
  induction rows generalizing s with
  | nil => rfl
  | cons r rows ih =>
    have h0 : s.spectrogramIndex ≠ k := by
      have := hk 0 (by simp)
      simpa [Nat.mod_eq_of_lt h] using this
    have h2 : (processAudio s r).spectrogramIndex < SPEC_TIME_FRAMES :=
      Nat.mod_lt _ (by norm_num [SPEC_TIME_FRAMES])
    have hk2 : ∀ j < rows.length,
        ((processAudio s r).spectrogramIndex + j) % SPEC_TIME_FRAMES ≠ k := by
      intro j hj
      have h3 := hk (j + 1) (by simpa using Nat.succ_lt_succ hj)
      simp only [processAudio]
      rw [Nat.mod_add_mod]
      have harith : s.spectrogramIndex + 1 + j = s.spectrogramIndex + (j + 1) := by omega
      rw [harith]
      exact h3
    have := ih (processAudio s r) h2 hk2
    simp only [processAll, List.foldl_cons] at this ⊢
    rw [this]
    simp only [processAudio]
    exact Function.update_noteq (Ne.symm h0) r s.melSpectrogram

/-- Reading back `t` slots past the starting cursor recovers the `t`-th
appended row, for runs of at most `SPEC_TIME_FRAMES` rows. -/
theorem processAll_read {Row : Type} (s : SpectrogramBuffer Row) (rows : List Row)
    (h : s.spectrogramIndex < SPEC_TIME_FRAMES)
    (hlen : rows.length ≤ SPEC_TIME_FRAMES) :
    ∀ (t : ℕ) (ht : t < rows.length),
      (processAll s rows).melSpectrogram
        ((s.spectrogramIndex + t) % SPEC_TIME_FRAMES) = rows.get ⟨t, ht⟩ := by
  induction rows generalizing s with
  | nil => intro t ht; exact absurd ht (by simp)
  | cons r rows ih =>
    intro t ht
    have h2 : (processAudio s r).spectrogramIndex < SPEC_TIME_FRAMES :=
      Nat.mod_lt _ (by norm_num [SPEC_TIME_FRAMES])
    match t with
    | 0 =>
      have huntouched := processAll_untouched (processAudio s r) rows
        s.spectrogramIndex h2 ?_
      · simp only [processAll, List.foldl_cons]
        rw [Nat.add_zero, Nat.mod_eq_of_lt h]
        show (processAll (processAudio s r) rows).melSpectrogram s.spectrogramIndex = r
        rw [huntouched]
        simp [processAudio, Function.update]
      · intro j hj
        have hrows : rows.length + 1 ≤ SPEC_TIME_FRAMES := by
          simpa using hlen
        show ((s.spectrogramIndex + 1) % SPEC_TIME_FRAMES + j) % SPEC_TIME_FRAMES ≠
          s.spectrogramIndex
        rw [Nat.mod_add_mod]
        simp only [SPEC_TIME_FRAMES] at h hrows ⊢
        omega
    | t + 1 =>
      have ht2 : t < rows.length := by simpa using Nat.lt_of_succ_lt_succ ht
      have := ih (processAudio s r) h2 (by simpa using Nat.le_of_succ_le hlen) t ht2
      simp only [processAll, List.foldl_cons]
      have hidx : ((processAudio s r).spectrogramIndex + t) % SPEC_TIME_FRAMES =
          (s.spectrogramIndex + (t + 1)) % SPEC_TIME_FRAMES := by
        simp only [processAudio]
        rw [Nat.mod_add_mod]
        have harith : s.spectrogramIndex + 1 + t = s.spectrogramIndex + (t + 1) := by omega
        rw [harith]
      rw [← hidx]
      exact this.trans (by simp)

/-- **C8**: after any run of `processAudio` appends totalling at least
`SPEC_TIME_FRAMES` rows, the tensor assembled by `runInference` (reading
from the cursor) lists exactly the last `SPEC_TIME_FRAMES` appended rows in
chronological order: row `t` of the tensor is the row appended
`SPEC_TIME_FRAMES - t` hops ago, starting with the oldest retained row. -/
theorem inference_tensor_chronological {Row : Type} (s : SpectrogramBuffer Row)
    (rows : List Row) (h : s.spectrogramIndex < SPEC_TIME_FRAMES)
    (hlen : SPEC_TIME_FRAMES ≤ rows.length) :
    ∀ (t : ℕ) (ht : t < SPEC_TIME_FRAMES),
      inferenceTensorRow (processAll s rows) t =
        rows.get ⟨rows.length - SPEC_TIME_FRAMES + t, by omega⟩ := by
  intro t ht
  have hsplit : rows = rows.take (rows.length - SPEC_TIME_FRAMES) ++
      rows.drop (rows.length - SPEC_TIME_FRAMES) := (List.take_append_drop _ _).symm
  set n := rows.length - SPEC_TIME_FRAMES with hn
  have hdroplen : (rows.drop n).length = SPEC_TIME_FRAMES := by
    simp [hn]; omega
  have hmid : (processAll s (rows.take n)).spectrogramIndex < SPEC_TIME_FRAMES := by
    rw [processAll_index s _ h]
    exact Nat.mod_lt _ (by norm_num [SPEC_TIME_FRAMES])
  have hread := processAll_read (processAll s (rows.take n)) (rows.drop n) hmid
    (le_of_eq hdroplen) t (by omega)
  have hcomp : processAll s rows =
      processAll (processAll s (rows.take n)) (rows.drop n) := by
    conv_lhs => rw [hsplit]
    exact processAll_append s _ _
  have hidx3 : (processAll (processAll s (rows.take n)) (rows.drop n)).spectrogramIndex =
      (processAll s (rows.take n)).spectrogramIndex := by
    rw [processAll_index _ _ hmid, hdroplen]
    simp only [SPEC_TIME_FRAMES] at hmid ⊢
    omega
  have hgoal : inferenceTensorRow (processAll s rows) t =
      (rows.drop n).get ⟨t, by omega⟩ := by
    rw [hcomp]
    simp only [inferenceTensorRow, hidx3]
    exact hread
  rw [hgoal]
  simp only [List.get_eq_getElem, List.getElem_drop]

theorem foldl_add_init (f : ℕ → ℝ) :
    ∀ (l : List ℕ) (c : ℝ),
      l.foldl (fun acc i => acc + f i) c = c + l.foldl (fun acc i => acc + f i) 0
  | [], c => by simp
  | i :: l, c => by
    simp only [List.foldl_cons]
    rw [foldl_add_init f l (c + f i), foldl_add_init f l (0 + f i)]
    ring

theorem forSum_eq_sum_aux (f : ℕ → ℝ) :
    ∀ (n a : ℕ), forSum a (a + n) f = ∑ i in Finset.Ico a (a + n), f i
  | 0, a => by simp [forSum]
  | n + 1, a => by
    have h1 : a + (n + 1) - a = n + 1 := by omega
    have h2 : a + 1 + n = a + (n + 1) := by omega
    simp only [forSum, h1, List.range'_succ, List.foldl_cons, zero_add]
    rw [foldl_add_init]
    have h3 := forSum_eq_sum_aux f n (a + 1)
    simp only [forSum, h2, Nat.add_sub_cancel_left] at h3
    have h4 : a + (n + 1) - (a + 1) = n := by omega
    rw [h4] at h3
    rw [h3, Finset.sum_eq_sum_Ico_succ_bot (by omega : a < a + (n + 1)) f]

theorem forSum_eq_sum_Ico (a b : ℕ) (f : ℕ → ℝ) :
    forSum a b f = ∑ i in Finset.Ico a b, f i := by
  rcases le_or_lt a b with h | h
  · obtain ⟨n, rfl⟩ : ∃ n, b = a + n := ⟨b - a, by omega⟩
    exact forSum_eq_sum_aux f n a
  · have hba : b - a = 0 := by omega
    have hico : Finset.Ico a b = ∅ := Finset.Ico_eq_empty (by omega)
    simp [forSum, hba, hico]

/-- Witness for C8: append the rows 0..31 to an empty buffer; tensor row 0
is the oldest retained row, namely 0. -/
theorem inference_tensor_chronological_witness :
    inferenceTensorRow (processAll (⟨fun _ => 0, 0⟩ : SpectrogramBuffer ℕ)
      (List.range 32)) 0 = 0 := by
  have h := inference_tensor_chronological (⟨fun _ => 0, 0⟩ : SpectrogramBuffer ℕ)
    (List.range 32) (by norm_num [SPEC_TIME_FRAMES])
    (by simp [SPEC_TIME_FRAMES]) 0 (by norm_num [SPEC_TIME_FRAMES])
  rw [h]
  simp [SPEC_TIME_FRAMES]

/-- For the constant signals `1` and `-1` with 8 samples and `maxLag = 2`,
the normalized correlation at every visited lag is exactly `-1`. -/
theorem normCorrAtLag_neg_one (lag : ℤ) (h1 : -2 ≤ lag) (h2 : lag ≤ 2) :
    normCorrAtLag (fun _ => 1) (fun _ => (-1 : ℝ)) 8 2 lag = -1 := by
  have hmem : ∀ i ∈ Finset.Ico (2 : ℕ) 6, (0 ≤ (i : ℤ) + lag ∧ (i : ℤ) + lag < ((8 : ℕ) : ℤ)) := by
    intro i hi
    rw [Finset.mem_Ico] at hi
    push_cast
    omega
  have h86 : (8 : ℕ) - 2 = 6 := rfl
  have hnum : xcNum (fun _ => 1) (fun _ => (-1 : ℝ)) 8 2 lag = -4 := by
    rw [xcNum, forSum_eq_sum_Ico, h86]
    rw [Finset.sum_congr rfl (fun i hi => if_pos (hmem i hi))]
    rw [Finset.sum_const, Nat.card_Ico]
    norm_num
  have hn1 : xcNorm1 (fun _ => (1 : ℝ)) 8 2 lag = 4 := by
    rw [xcNorm1, forSum_eq_sum_Ico, h86]
    rw [Finset.sum_congr rfl (fun i hi => if_pos (hmem i hi))]
    rw [Finset.sum_const, Nat.card_Ico]
    norm_num
  have hn2 : xcNorm2 (fun _ => (-1 : ℝ)) 8 2 lag = 4 := by
    rw [xcNorm2, forSum_eq_sum_Ico, h86]
    rw [Finset.sum_congr rfl (fun i hi => if_pos (hmem i hi))]
    rw [Finset.sum_const, Nat.card_Ico]
    norm_num
  rw [normCorrAtLag, hnum, hn1, hn2]
  have hsqrt : Real.sqrt ((4 : ℝ) * 4) = 4 := by
    rw [show ((4 : ℝ) * 4) = 4 ^ 2 by norm_num, Real.sqrt_sq (by norm_num : (0 : ℝ) ≤ 4)]
  rw [hsqrt, if_pos (by norm_num)]
  norm_num

/-- The full cross-correlation of the constant signals `1` and `-1` over 8
samples, with zero configured delay: winning lag `-2`, confidence `-1`. -/
theorem crossCorrelate_const_opposite :
    crossCorrelate 0 (fun _ => 1) (fun _ => (-1 : ℝ)) 8 = (-2, -1) := by
  have hml : xcMaxLag 0 8 = 2 := by
    rw [xcMaxLag]
    norm_num
  have hlags : xcLags 0 8 = [-2, -1, 0, 1, 2] := by
    rw [xcLags, hml]
    decide
  have hv : ∀ lag : ℤ, -2 ≤ lag → lag ≤ 2 →
      normCorrAtLag (fun _ => 1) (fun _ => (-1 : ℝ)) 8 (xcMaxLag 0 8).toNat lag = -1 := by
    intro lag ha hb
    rw [hml]
    exact normCorrAtLag_neg_one lag ha hb
  simp only [crossCorrelate, hlags, List.foldl_cons, List.foldl_nil]
  rw [hv (-2) (by norm_num) (by norm_num), hv (-1) (by norm_num) (by norm_num),
    hv 0 (by norm_num) (by norm_num), hv 1 (by norm_num) (by norm_num),
    hv 2 (by norm_num) (by norm_num)]
  norm_num

/-- Counterexample to C4 as stated: the correlation confidence is not
always in `[0,1]` — for input signals of opposite sign every normalized
correlation is negative, and `crossCorrelate` returns confidence `-1`. -/
theorem correlation_confidence_counterexample :
    (crossCorrelate 0 (fun _ => 1) (fun _ => (-1 : ℝ)) 8).2 = -1 ∧
      ¬ (0 ≤ (crossCorrelate 0 (fun _ => 1) (fun _ => (-1 : ℝ)) 8).2) := by
  rw [crossCorrelate_const_opposite]
  norm_num

theorem xcNorm1_nonneg (sig1 : ℕ → ℝ) (n maxLag : ℕ) (lag : ℤ) :
    0 ≤ xcNorm1 sig1 n maxLag lag := by
  rw [xcNorm1, forSum_eq_sum_Ico]
  refine Finset.sum_nonneg fun i _ => ?_
  split_ifs
  · exact mul_self_nonneg _
  · exact le_refl 0

theorem xcNorm2_nonneg (sig2 : ℕ → ℝ) (n maxLag : ℕ) (lag : ℤ) :
    0 ≤ xcNorm2 sig2 n maxLag lag := by
  rw [xcNorm2, forSum_eq_sum_Ico]
  refine Finset.sum_nonneg fun i _ => ?_
  split_ifs
  · exact mul_self_nonneg _
  · exact le_refl 0

/-- Cauchy–Schwarz for the three correlation accumulators. -/
theorem xcNum_sq_le (sig1 sig2 : ℕ → ℝ) (n maxLag : ℕ) (lag : ℤ) :
    xcNum sig1 sig2 n maxLag lag ^ 2 ≤
      xcNorm1 sig1 n maxLag lag * xcNorm2 sig2 n maxLag lag := by
  rw [xcNum, xcNorm1, xcNorm2, forSum_eq_sum_Ico, forSum_eq_sum_Ico, forSum_eq_sum_Ico]
  have e1 : (∑ i in Finset.Ico maxLag (n - maxLag),
      if 0 ≤ (i : ℤ) + lag ∧ (i : ℤ) + lag < (n : ℤ) then
        sig1 i * sig2 ((i : ℤ) + lag).toNat else 0) =
      ∑ i in Finset.Ico maxLag (n - maxLag),
        (if 0 ≤ (i : ℤ) + lag ∧ (i : ℤ) + lag < (n : ℤ) then sig1 i else 0) *
          (if 0 ≤ (i : ℤ) + lag ∧ (i : ℤ) + lag < (n : ℤ) then
            sig2 ((i : ℤ) + lag).toNat else 0) := by
    refine Finset.sum_congr rfl fun i _ => ?_
    split_ifs <;> ring
  have e2 : (∑ i in Finset.Ico maxLag (n - maxLag),
      if 0 ≤ (i : ℤ) + lag ∧ (i : ℤ) + lag < (n : ℤ) then sig1 i * sig1 i else 0) =
      ∑ i in Finset.Ico maxLag (n - maxLag),
        (if 0 ≤ (i : ℤ) + lag ∧ (i : ℤ) + lag < (n : ℤ) then sig1 i else 0) ^ 2 := by
    refine Finset.sum_congr rfl fun i _ => ?_
    split_ifs <;> ring
  have e3 : (∑ i in Finset.Ico maxLag (n - maxLag),
      if 0 ≤ (i : ℤ) + lag ∧ (i : ℤ) + lag < (n : ℤ) then
        sig2 ((i : ℤ) + lag).toNat * sig2 ((i : ℤ) + lag).toNat else 0) =
      ∑ i in Finset.Ico maxLag (n - maxLag),
        (if 0 ≤ (i : ℤ) + lag ∧ (i : ℤ) + lag < (n : ℤ) then
          sig2 ((i : ℤ) + lag).toNat else 0) ^ 2 := by
    refine Finset.sum_congr rfl fun i _ => ?_
    split_ifs <;> ring
  rw [e1, e2, e3]
  exact Finset.sum_mul_sq_le_sq_mul_sq _ _ _

/-- The normalized correlation at any lag lies in `[-1, 1]`. -/
theorem normCorrAtLag_mem (sig1 sig2 : ℕ → ℝ) (n maxLag : ℕ) (lag : ℤ) :
    -1 ≤ normCorrAtLag sig1 sig2 n maxLag lag ∧
      normCorrAtLag sig1 sig2 n maxLag lag ≤ 1 := by
  rw [normCorrAtLag]
  split_ifs with h
  · have hpos : (0 : ℝ) < Real.sqrt (xcNorm1 sig1 n maxLag lag * xcNorm2 sig2 n maxLag lag) :=
      lt_trans (by norm_num) h
    have habs : |xcNum sig1 sig2 n maxLag lag| ≤
        Real.sqrt (xcNorm1 sig1 n maxLag lag * xcNorm2 sig2 n maxLag lag) := by
      rw [← Real.sqrt_sq_eq_abs]
      exact Real.sqrt_le_sqrt (xcNum_sq_le sig1 sig2 n maxLag lag)
    obtain ⟨hl, hu⟩ := abs_le.mp habs
    constructor
    · rw [le_div_iff₀ hpos]
      linarith
    · rw [div_le_one hpos]
      exact hu
  · norm_num

/-- Folding the lag loop from the sentinel `-1e10` over values in `[-1,1]`
keeps the running maximum in `[-1,1]` once it has entered the interval. -/
theorem foldMax_mem (v : ℤ → ℝ) (hv : ∀ lag : ℤ, -1 ≤ v lag ∧ v lag ≤ 1) :
    ∀ (lags : List ℤ) (acc : ℝ × ℤ), -1 ≤ acc.1 → acc.1 ≤ 1 →
      -1 ≤ (lags.foldl (fun a lag => if a.1 < v lag then (v lag, lag) else a) acc).1 ∧
        (lags.foldl (fun a lag => if a.1 < v lag then (v lag, lag) else a) acc).1 ≤ 1
  | [], acc, h1, h2 => ⟨h1, h2⟩
  | l :: lags, acc, h1, h2 => by
    simp only [List.foldl_cons]
    by_cases hc : acc.1 < v l
    · rw [if_pos hc]
      exact foldMax_mem v hv lags (v l, l) (hv l).1 (hv l).2
    · rw [if_neg hc]
      exact foldMax_mem v hv lags acc h1 h2

/-- With a non-negative configured maximum delay the lag list is
nonempty. -/
theorem xcLags_ne_nil (md : ℝ) (n : ℕ) (hmd : 0 ≤ md) :
    xcLags md n ≠ [] := by
  rw [xcLags]
  intro hcontra
  have hml : 0 ≤ xcMaxLag md n := by
    rw [xcMaxLag]
    refine le_min ?_ ?_
    · have := Int.ceil_nonneg hmd
      omega
    · exact Int.ediv_nonneg (by positivity) (by norm_num)
  have hlen := congrArg List.length hcontra
  simp only [List.length_map, List.length_range, List.length_nil] at hlen
  rw [Int.toNat_eq_zero] at hlen
  omega

/-- **C4 (amended)**: the per-pair correlation confidence produced by
`crossCorrelate`, and hence the averaged confidence stored by
`estimateDirection`, lies in `[-1, 1]` (not `[0, 1]`: anti-correlated
inputs produce negative confidences). -/
theorem correlation_confidence_amended (md : ℝ) (hmd : 0 ≤ md) (sig1 sig2 : ℕ → ℝ)
    (n : ℕ) (micSpacingM speedOfSound : ℝ) (sampleRate : ℕ) (st : DirectionState)
    (m1 m2 m3 m4 : ℕ → ℝ) :
    (-1 ≤ (crossCorrelate md sig1 sig2 n).2 ∧ (crossCorrelate md sig1 sig2 n).2 ≤ 1) ∧
      (-1 ≤ (estimateDirection md micSpacingM speedOfSound sampleRate st
          m1 m2 m3 m4 n).1.lastConfidence ∧
        (estimateDirection md micSpacingM speedOfSound sampleRate st
          m1 m2 m3 m4 n).1.lastConfidence ≤ 1) := by
  have hcc : ∀ s1 s2 : ℕ → ℝ,
      -1 ≤ (crossCorrelate md s1 s2 n).2 ∧ (crossCorrelate md s1 s2 n).2 ≤ 1 := by
    intro s1 s2
    rcases hxc : xcLags md n with _ | ⟨l, rest⟩
    · exact absurd hxc (xcLags_ne_nil md n hmd)
    · simp only [crossCorrelate, hxc, List.foldl_cons]
      have hvl := normCorrAtLag_mem s1 s2 n (xcMaxLag md n).toNat l
      rw [if_pos (by linarith [hvl.1] : (-1e10 : ℝ) <
        normCorrAtLag s1 s2 n (xcMaxLag md n).toNat l)]
      exact foldMax_mem _ (fun lag => normCorrAtLag_mem s1 s2 n (xcMaxLag md n).toNat lag)
        rest (normCorrAtLag s1 s2 n (xcMaxLag md n).toNat l, l) hvl.1 hvl.2
  refine ⟨hcc sig1 sig2, ?_⟩
  have hmean : -1 ≤ meanConfidence md m1 m2 m3 m4 n ∧
      meanConfidence md m1 m2 m3 m4 n ≤ 1 := by
    rw [meanConfidence]
    have h12 := hcc m1 m2
    have h14 := hcc m1 m4
    have h32 := hcc m3 m2
    have h34 := hcc m3 m4
    constructor <;> [linarith [h12.1, h14.1, h32.1, h34.1];
      linarith [h12.2, h14.2, h32.2, h34.2]]
  simp only [estimateDirection]
  split_ifs <;> exact hmean

/-- Witness for C4 (amended) at concrete zero inputs. -/
theorem correlation_confidence_amended_witness :
    -1 ≤ (crossCorrelate 0 (fun _ => 0) (fun _ => 0) 4).2 ∧
      (crossCorrelate 0 (fun _ => 0) (fun _ => 0) 4).2 ≤ 1 :=
  (correlation_confidence_amended 0 (by norm_num) (fun _ => 0) (fun _ => 0) 4
    1 343 44100 ⟨0, 0⟩ (fun _ => 0) (fun _ => 0) (fun _ => 0) (fun _ => 0)).1

/-- The cross-correlation of any two signals over a zero-length frame with
zero configured delay: lag 0, confidence 0 (empty accumulation, norm at the
numerical floor). -/
theorem crossCorrelate_len_zero (s1 s2 : ℕ → ℝ) :
    crossCorrelate 0 s1 s2 0 = (0, 0) := by
  have hml : xcMaxLag 0 0 = 0 := by
    rw [xcMaxLag]
    norm_num
  have hlags : xcLags 0 0 = [0] := by
    rw [xcLags, hml]
    decide
  have hval : normCorrAtLag s1 s2 0 (xcMaxLag 0 0).toNat 0 = 0 := by
    rw [hml]
    rw [normCorrAtLag]
    have h1 : xcNorm1 s1 0 (0 : ℤ).toNat 0 = 0 := by
      rw [xcNorm1]
      simp [forSum]
    have h2 : xcNorm2 s2 0 (0 : ℤ).toNat 0 = 0 := by
      rw [xcNorm2]
      simp [forSum]
    rw [h1, h2]
    rw [if_neg (by norm_num)]
  simp only [crossCorrelate, hlags, List.foldl_cons, List.foldl_nil]
  rw [hval]
  norm_num

/-- **C5**: whenever the mean of the four pairwise correlation confidences
is below the minimum correlation threshold (0.5), `estimateDirection`
returns the previous smoothed bearing and leaves the smoothed-bearing state
unchanged — no blending occurs on that call. -/
theorem low_confidence_holds_bearing (md micSpacingM speedOfSound : ℝ) (sampleRate : ℕ)
    (st : DirectionState) (m1 m2 m3 m4 : ℕ → ℝ) (n : ℕ)
    (hconf : meanConfidence md m1 m2 m3 m4 n < MIN_CORRELATION) :
    (estimateDirection md micSpacingM speedOfSound sampleRate st m1 m2 m3 m4 n).2 =
        st.smoothedDirection ∧
      (estimateDirection md micSpacingM speedOfSound sampleRate st
        m1 m2 m3 m4 n).1.smoothedDirection = st.smoothedDirection := by
  simp only [MIN_CORRELATION] at hconf
  simp only [estimateDirection]
  rw [if_pos (by exact_mod_cast hconf)]
  exact ⟨rfl, rfl⟩

/-- Witness for C5: all-zero signals over an empty frame give mean
confidence 0 < 0.5, so the previous smoothed bearing 123 is held. -/
theorem low_confidence_holds_bearing_witness :
    (estimateDirection 0 0.05 343 44100 ⟨0, 123⟩ (fun _ => 0) (fun _ => 0)
        (fun _ => 0) (fun _ => 0) 0).2 = 123 ∧
      (estimateDirection 0 0.05 343 44100 ⟨0, 123⟩ (fun _ => 0) (fun _ => 0)
        (fun _ => 0) (fun _ => 0) 0).1.smoothedDirection = 123 := by
  have hm : meanConfidence 0 (fun _ => (0 : ℝ)) (fun _ => 0) (fun _ => 0) (fun _ => 0) 0 = 0 := by
    rw [meanConfidence, crossCorrelate_len_zero]
    norm_num
  exact low_confidence_holds_bearing 0 0.05 343 44100 ⟨0, 123⟩ _ _ _ _ 0
    (by rw [hm]; norm_num [MIN_CORRELATION])


theorem wrapDiff_bounds (d : ℝ) (h1 : -360 < d) (h2 : d < 360) :
    -180 ≤ wrapDiff d ∧ wrapDiff d ≤ 180 := by
  rw [wrapDiff]
  split_ifs <;> constructor <;> linarith

theorem wrapDiff_self_zero : wrapDiff 0 = 0 := by
  rw [wrapDiff]
  norm_num

/-- Degree bounds for `atan2` scaled to degrees. -/
theorem atan2_deg_bounds (y x : ℝ) :
    -180 < atan2 y x * 180 / Real.pi ∧ atan2 y x * 180 / Real.pi ≤ 180 := by
  have h1 := Complex.neg_pi_lt_arg (⟨x, y⟩ : ℂ)
  have h2 := Complex.arg_le_pi (⟨x, y⟩ : ℂ)
  have hπ := Real.pi_pos
  simp only [atan2]
  constructor
  · rw [lt_div_iff₀ hπ]
    nlinarith
  · rw [div_le_iff₀ hπ]
    nlinarith

/-- `tdoaToAzimuth` always lands in `[0, 360)`. -/
theorem tdoaToAzimuth_mem (micSpacingM speedOfSound : ℝ) (sampleRate : ℕ)
    (t12 t14 t32 t34 : ℝ) :
    0 ≤ tdoaToAzimuth micSpacingM speedOfSound sampleRate t12 t14 t32 t34 ∧
      tdoaToAzimuth micSpacingM speedOfSound sampleRate t12 t14 t32 t34 < 360 := by
  simp only [tdoaToAzimuth]
  set a0 := atan2
    (cConstrain (speedOfSound * ((t12 / (sampleRate : ℝ) + t34 / (sampleRate : ℝ)) / 2) /
      micSpacingM) (-1) 1)
    (-(cConstrain (speedOfSound * ((t14 / (sampleRate : ℝ) + t32 / (sampleRate : ℝ)) / 2) /
      micSpacingM) (-1) 1)) * 180 / Real.pi with ha0
  obtain ⟨hlb, hub⟩ := atan2_deg_bounds
    (cConstrain (speedOfSound * ((t12 / (sampleRate : ℝ) + t34 / (sampleRate : ℝ)) / 2) /
      micSpacingM) (-1) 1)
    (-(cConstrain (speedOfSound * ((t14 / (sampleRate : ℝ) + t32 / (sampleRate : ℝ)) / 2) /
      micSpacingM) (-1) 1))
  rw [← ha0] at hlb hub
  split_ifs with h
  · constructor <;> linarith
  · push_neg at h
    constructor <;> linarith

/-- The blending step stays in `[0, 360)` and moves the smoothed bearing by
exactly the smoothing factor times the shortest angular difference. -/
theorem blendDirection_spec (s a : ℝ) (hs0 : 0 ≤ s) (hs1 : s < 360)
    (ha0 : 0 ≤ a) (ha1 : a < 360) :
    (0 ≤ blendDirection s a ∧ blendDirection s a < 360) ∧
      angDist (blendDirection s a) s = 0.3 * angDist a s := by
  obtain ⟨hw1, hw2⟩ := wrapDiff_bounds (a - s) (by linarith) (by linarith)
  have hd : (if (if 180 < a - s then a - s - 360 else a - s) < -180 then
      (if 180 < a - s then a - s - 360 else a - s) + 360
      else (if 180 < a - s then a - s - 360 else a - s)) = wrapDiff (a - s) := by
    rw [wrapDiff]
    split_ifs <;> linarith
  have hblend : blendDirection s a =
      (if 360 ≤ (if s + 0.3 * wrapDiff (a - s) < 0 then s + 0.3 * wrapDiff (a - s) + 360
          else s + 0.3 * wrapDiff (a - s)) then
        (if s + 0.3 * wrapDiff (a - s) < 0 then s + 0.3 * wrapDiff (a - s) + 360
          else s + 0.3 * wrapDiff (a - s)) - 360
      else (if s + 0.3 * wrapDiff (a - s) < 0 then s + 0.3 * wrapDiff (a - s) + 360
          else s + 0.3 * wrapDiff (a - s))) := by
    simp only [blendDirection]
    rw [hd]
  have h03l : (-54 : ℝ) ≤ 0.3 * wrapDiff (a - s) := by nlinarith
  have h03u : 0.3 * wrapDiff (a - s) ≤ 54 := by nlinarith
  have hads : angDist a s = |wrapDiff (a - s)| := rfl
  rcases lt_or_le (s + 0.3 * wrapDiff (a - s)) 0 with hneg | hpos
  · rw [hblend, if_pos hneg, if_neg (by linarith)]
    refine ⟨⟨by linarith, by linarith⟩, ?_⟩
    rw [angDist, show s + 0.3 * wrapDiff (a - s) + 360 - s = 0.3 * wrapDiff (a - s) + 360
      by ring]
    rw [wrapDiff, if_pos (by linarith)]
    rw [show 0.3 * wrapDiff (a - s) + 360 - 360 = 0.3 * wrapDiff (a - s) by ring]
    rw [hads, abs_mul, abs_of_pos (by norm_num : (0 : ℝ) < 0.3)]
  · rw [hblend, if_neg (not_lt.mpr hpos)]
    rcases le_or_lt 360 (s + 0.3 * wrapDiff (a - s)) with hover | hin
    · rw [if_pos hover]
      refine ⟨⟨by linarith, by linarith⟩, ?_⟩
      rw [angDist, show s + 0.3 * wrapDiff (a - s) - 360 - s = 0.3 * wrapDiff (a - s) - 360
        by ring]
      rw [wrapDiff, if_neg (by linarith), if_pos (by linarith)]
      rw [show 0.3 * wrapDiff (a - s) - 360 + 360 = 0.3 * wrapDiff (a - s) by ring]
      rw [hads, abs_mul, abs_of_pos (by norm_num : (0 : ℝ) < 0.3)]
    · rw [if_neg (not_le.mpr hin)]
      refine ⟨⟨hpos, hin⟩, ?_⟩
      rw [angDist, show s + 0.3 * wrapDiff (a - s) - s = 0.3 * wrapDiff (a - s) by ring]
      rw [wrapDiff, if_neg (by linarith), if_neg (by linarith)]
      rw [hads, abs_mul, abs_of_pos (by norm_num : (0 : ℝ) < 0.3)]

/-- **C6**: for every call to `estimateDirection` with the smoothed bearing
initially in `[0, 360)`, the smoothed bearing changes (in angular distance)
by at most the smoothing factor `DIRECTION_SMOOTHING` (0.3) times the
shortest angular difference between the computed azimuth and the previous
smoothed bearing, and the result is again in `[0, 360)`. -/
theorem direction_smoothing_bounded (md micSpacingM speedOfSound : ℝ) (sampleRate : ℕ)
    (st : DirectionState) (m1 m2 m3 m4 : ℕ → ℝ) (n : ℕ)
    (hs0 : 0 ≤ st.smoothedDirection) (hs1 : st.smoothedDirection < 360) :
    (0 ≤ (estimateDirection md micSpacingM speedOfSound sampleRate st
          m1 m2 m3 m4 n).1.smoothedDirection ∧
        (estimateDirection md micSpacingM speedOfSound sampleRate st
          m1 m2 m3 m4 n).1.smoothedDirection < 360) ∧
      angDist (estimateDirection md micSpacingM speedOfSound sampleRate st
          m1 m2 m3 m4 n).1.smoothedDirection st.smoothedDirection ≤
        DIRECTION_SMOOTHING *
          angDist (estimatedAzimuth md micSpacingM speedOfSound sampleRate
            m1 m2 m3 m4 n) st.smoothedDirection := by
  have hDS : DIRECTION_SMOOTHING = (0.3 : ℝ) := rfl
  simp only [estimateDirection]
  split_ifs with h
  · refine ⟨⟨hs0, hs1⟩, ?_⟩
    have hzero : angDist st.smoothedDirection st.smoothedDirection = 0 := by
      rw [angDist, sub_self, wrapDiff_self_zero, abs_zero]
    rw [hzero, hDS]
    exact mul_nonneg (by norm_num) (abs_nonneg _)
  · have haz := tdoaToAzimuth_mem micSpacingM speedOfSound sampleRate
      (crossCorrelate md m1 m2 n).1 (crossCorrelate md m1 m4 n).1
      (crossCorrelate md m3 m2 n).1 (crossCorrelate md m3 m4 n).1
    have hb := blendDirection_spec st.smoothedDirection
      (estimatedAzimuth md micSpacingM speedOfSound sampleRate m1 m2 m3 m4 n)
      hs0 hs1 haz.1 haz.2
    exact ⟨hb.1, by rw [hDS]; exact le_of_eq hb.2⟩

/-- Witness for C6 at concrete zero inputs (initial smoothed bearing 0). -/
theorem direction_smoothing_bounded_witness :
    (0 ≤ (estimateDirection 0 0.05 343 44100 ⟨0, 0⟩ (fun _ => 0) (fun _ => 0)
          (fun _ => 0) (fun _ => 0) 0).1.smoothedDirection ∧
        (estimateDirection 0 0.05 343 44100 ⟨0, 0⟩ (fun _ => 0) (fun _ => 0)
          (fun _ => 0) (fun _ => 0) 0).1.smoothedDirection < 360) ∧
      angDist (estimateDirection 0 0.05 343 44100 ⟨0, 0⟩ (fun _ => 0) (fun _ => 0)
          (fun _ => 0) (fun _ => 0) 0).1.smoothedDirection 0 ≤
        DIRECTION_SMOOTHING *
          angDist (estimatedAzimuth 0 0.05 343 44100 (fun _ => 0) (fun _ => 0)
            (fun _ => 0) (fun _ => 0) 0) 0 :=
  direction_smoothing_bounded 0 0.05 343 44100 ⟨0, 0⟩ (fun _ => 0) (fun _ => 0)
    (fun _ => 0) (fun _ => 0) 0 (by norm_num) (by norm_num)

/-- **C3**: for every input frame of length `numSamples ≤ transformSize`,
each mel band `m` of `computeMelSpectrogram` equals
`20·log10(max(s_m, 1e-10))` where `s_m` is the filterbank-weighted sum over
the magnitude spectrum of the Hann-windowed, zero-padded frame; a non-zero
stored noise floor for band `m` is subtracted with the result floored at
zero, while bands whose noise floor is exactly zero get no subtraction. -/
theorem computeMelSpectrogram_formula (sr N B : ℕ) (nf x : ℕ → ℝ) (numSamples m : ℕ)
    (_hns : numSamples ≤ N) (_hm : m < B) :
    (nf m = 0 → computeMelSpectrogram sr N B nf x numSamples m =
      20 * Real.logb 10 (max (∑ k in Finset.range (N / 2 + 1),
        melWeight sr N B m k *
          dftMag N (fun i => if i < numSamples then x i * hannWindow N i else 0) k)
        1e-10)) ∧
    (nf m ≠ 0 → computeMelSpectrogram sr N B nf x numSamples m =
      max (20 * Real.logb 10 (max (∑ k in Finset.range (N / 2 + 1),
        melWeight sr N B m k *
          dftMag N (fun i => if i < numSamples then x i * hannWindow N i else 0) k)
        1e-10) - nf m) 0) := by
  have hsum : melBandSum sr N B (windowedFrame N numSamples x) m =
      ∑ k in Finset.range (N / 2 + 1), melWeight sr N B m k *
        dftMag N (fun i => if i < numSamples then x i * hannWindow N i else 0) k := by
    rw [melBandSum, forSum_eq_sum_Ico, ← Finset.range_eq_Ico]
    rfl
  constructor
  · intro h0
    simp only [computeMelSpectrogram, h0, ne_eq, not_true_eq_false, if_false, hsum]
  · intro h0
    simp only [computeMelSpectrogram]
    rw [if_pos h0, hsum]

/-- Witness for C3: zero-band case at a concrete configuration. -/
theorem computeMelSpectrogram_formula_witness :
    computeMelSpectrogram 1 2 1 (fun _ => 0) (fun _ => 0) 0 0 =
      20 * Real.logb 10 (max (∑ k in Finset.range (2 / 2 + 1),
        melWeight 1 2 1 0 k *
          dftMag 2 (fun i => if i < 0 then (fun _ => (0 : ℝ)) i * hannWindow 2 i else 0) k)
        1e-10) :=
  (computeMelSpectrogram_formula 1 2 1 (fun _ => 0) (fun _ => 0) 0 0
    (by norm_num) (by norm_num)).1 rfl


theorem hzToMel_zero : hzToMel 0 = 0 := by
  simp [hzToMel]

theorem hzToMel_nonneg (hz : ℝ) (h : 0 ≤ hz) : 0 ≤ hzToMel hz := by
  rw [hzToMel]
  have h1 : 0 ≤ Real.logb 10 (1 + hz / 700) :=
    Real.logb_nonneg (by norm_num)
      (by linarith [div_nonneg h (by norm_num : (0 : ℝ) ≤ 700)])
  linarith

theorem melToHz_nonneg (mel : ℝ) (h : 0 ≤ mel) : 0 ≤ melToHz mel := by
  rw [melToHz]
  have h1 : (1 : ℝ) ≤ (10 : ℝ) ^ (mel / 2595) := by
    calc (1 : ℝ) = (10 : ℝ) ^ (0 : ℝ) := (Real.rpow_zero 10).symm
    _ ≤ (10 : ℝ) ^ (mel / 2595) :=
      Real.rpow_le_rpow_of_exponent_le (by norm_num)
        (div_nonneg h (by norm_num))
  linarith

theorem melToHz_mono {x y : ℝ} (h : x ≤ y) : melToHz x ≤ melToHz y := by
  rw [melToHz, melToHz]
  have h1 : (10 : ℝ) ^ (x / 2595) ≤ (10 : ℝ) ^ (y / 2595) :=
    Real.rpow_le_rpow_of_exponent_le (by norm_num) (by linarith)
  linarith

theorem melPointHz_nonneg (sr B i : ℕ) : 0 ≤ melPointHz sr B i := by
  rw [melPointHz]
  apply melToHz_nonneg
  rw [hzToMel_zero, sub_zero, zero_add]
  have hmax : 0 ≤ hzToMel ((sr : ℝ) / 2) := hzToMel_nonneg _ (by positivity)
  exact div_nonneg (mul_nonneg hmax (by positivity)) (by positivity)

theorem melPointHz_mono (sr B : ℕ) {i j : ℕ} (h : i ≤ j) :
    melPointHz sr B i ≤ melPointHz sr B j := by
  rw [melPointHz, melPointHz]
  apply melToHz_mono
  rw [hzToMel_zero, sub_zero, zero_add, zero_add]
  have hmax : 0 ≤ hzToMel ((sr : ℝ) / 2) := hzToMel_nonneg _ (by positivity)
  have hBpos : (0 : ℝ) < (B : ℝ) + 1 := by positivity
  exact (div_le_div_iff_of_pos_right hBpos).mpr
    (mul_le_mul_of_nonneg_left (Nat.cast_le.mpr h) hmax)

theorem cTruncInt_mono_nonneg {x y : ℝ} (hx : 0 ≤ x) (h : x ≤ y) :
    cTruncInt x ≤ cTruncInt y := by
  rw [cTruncInt, cTruncInt, if_pos hx, if_pos (le_trans hx h)]
  exact Int.floor_le_floor h

theorem cConstrainInt_mono {v w lo hi : ℤ} (hlohi : lo ≤ hi) (h : v ≤ w) :
    cConstrainInt v lo hi ≤ cConstrainInt w lo hi := by
  rw [cConstrainInt, cConstrainInt]
  split_ifs <;> omega

theorem fftBinPoint_mono (sr N B : ℕ) (hsr : 0 < sr) {i j : ℕ} (h : i ≤ j) :
    fftBinPoint sr N B i ≤ fftBinPoint sr N B j := by
  have hsr2 : (0 : ℝ) < (sr : ℝ) / 2 := by
    have : (0 : ℝ) < (sr : ℝ) := by exact_mod_cast hsr
    linarith
  rw [fftBinPoint, fftBinPoint]
  apply cConstrainInt_mono (by omega)
  apply cTruncInt_mono_nonneg
  · exact mul_nonneg (div_nonneg (melPointHz_nonneg sr B i) hsr2.le) (by positivity)
  · exact mul_le_mul_of_nonneg_right
      ((div_le_div_iff_of_pos_right hsr2).mpr (melPointHz_mono sr B h)) (by positivity)

theorem melWeight_mem (sr N B m k : ℕ) :
    0 ≤ melWeight sr N B m k ∧ melWeight sr N B m k ≤ 1 := by
  simp only [melWeight]
  split_ifs with h1 h2 h3 h4
  · obtain ⟨ha, hb⟩ := h1
    have hlt : fftBinPoint sr N B m < fftBinPoint sr N B (m + 1) := lt_of_le_of_lt ha hb
    have hd : (0 : ℝ) < ((fftBinPoint sr N B (m + 1) - fftBinPoint sr N B m : ℤ) : ℝ) := by
      exact_mod_cast Int.sub_pos.mpr hlt
    constructor
    · refine div_nonneg ?_ hd.le
      exact_mod_cast Int.sub_nonneg.mpr ha
    · rw [div_le_one hd]
      exact_mod_cast Int.sub_le_sub_right hb.le _
  · exact ⟨le_refl 0, by norm_num⟩
  · obtain ⟨ha, hb⟩ := h3
    have hlt : fftBinPoint sr N B (m + 1) < fftBinPoint sr N B (m + 2) :=
      lt_of_le_of_ne (le_trans ha hb) (Ne.symm h4)
    have hd : (0 : ℝ) < ((fftBinPoint sr N B (m + 2) - fftBinPoint sr N B (m + 1) : ℤ) : ℝ) := by
      exact_mod_cast Int.sub_pos.mpr hlt
    constructor
    · refine div_nonneg ?_ hd.le
      exact_mod_cast Int.sub_nonneg.mpr hb
    · rw [div_le_one hd]
      exact_mod_cast Int.sub_le_sub_left ha _
  · exact ⟨le_refl 0, by norm_num⟩
  · exact ⟨le_refl 0, by norm_num⟩

/-- **C7**: for every valid `(sampleRate, transformSize, melBins)`, the
three boundary bin indices of every filter satisfy `start ≤ center ≤ end`;
every filterbank weight is non-negative and at most 1 (in particular
finite); weights are zero outside the filter's triangular support
`[start, end]`; and when boundaries coincide (a zero-width slope) the
affected slope's weights stay zero — the guarded division is never taken,
so no division by zero occurs. -/
theorem melFilterbank_props (sr N B : ℕ) (hsr : 0 < sr) (_hN : 0 < N) (_hB : 0 < B) :
    (∀ m : ℕ, fftBinPoint sr N B m ≤ fftBinPoint sr N B (m + 1) ∧
      fftBinPoint sr N B (m + 1) ≤ fftBinPoint sr N B (m + 2)) ∧
    (∀ m k : ℕ, 0 ≤ melWeight sr N B m k ∧ melWeight sr N B m k ≤ 1) ∧
    (∀ m k : ℕ, ((k : ℤ) < fftBinPoint sr N B m ∨ fftBinPoint sr N B (m + 2) < (k : ℤ)) →
      melWeight sr N B m k = 0) ∧
    (∀ m k : ℕ, fftBinPoint sr N B (m + 1) = fftBinPoint sr N B (m + 2) →
      fftBinPoint sr N B (m + 1) ≤ (k : ℤ) → melWeight sr N B m k = 0) ∧
    (∀ m k : ℕ, fftBinPoint sr N B m = fftBinPoint sr N B (m + 1) →
      (k : ℤ) < fftBinPoint sr N B (m + 1) → melWeight sr N B m k = 0) := by
  have hmono : ∀ m : ℕ, fftBinPoint sr N B m ≤ fftBinPoint sr N B (m + 1) ∧
      fftBinPoint sr N B (m + 1) ≤ fftBinPoint sr N B (m + 2) := fun m =>
    ⟨fftBinPoint_mono sr N B hsr (Nat.le_succ m),
      fftBinPoint_mono sr N B hsr (Nat.le_succ (m + 1))⟩
  refine ⟨hmono, melWeight_mem sr N B, ?_, ?_, ?_⟩
  · intro m k hk
    obtain ⟨hm1, hm2⟩ := hmono m
    simp only [melWeight]
    rcases hk with hk | hk
    · rw [if_neg (by rintro ⟨ha, -⟩; omega), if_neg (by rintro ⟨ha, -⟩; omega)]
    · rw [if_neg (by rintro ⟨-, hb⟩; omega), if_neg (by rintro ⟨-, hb⟩; omega)]
  · intro m k hdeg hge
    simp only [melWeight]
    rw [if_neg (by rintro ⟨-, hb⟩; omega)]
    by_cases hfall : fftBinPoint sr N B (m + 1) ≤ (k : ℤ) ∧
        (k : ℤ) ≤ fftBinPoint sr N B (m + 2)
    · rw [if_pos hfall, if_neg (by omega)]
    · rw [if_neg hfall]
  · intro m k hdeg hlt
    simp only [melWeight]
    rw [if_neg (by rintro ⟨ha, -⟩; omega), if_neg (by rintro ⟨hc, -⟩; omega)]

/-- Witness for C7 at the shipped configuration (44100 Hz, 2048-point
transform, 128 mel bins): boundary ordering and weight bounds for the first
filter and bin. -/
theorem melFilterbank_props_witness :
    (fftBinPoint 44100 2048 128 0 ≤ fftBinPoint 44100 2048 128 1 ∧
      fftBinPoint 44100 2048 128 1 ≤ fftBinPoint 44100 2048 128 2) ∧
      (0 ≤ melWeight 44100 2048 128 0 0 ∧ melWeight 44100 2048 128 0 0 ≤ 1) :=
  ⟨(melFilterbank_props 44100 2048 128 (by norm_num) (by norm_num) (by norm_num)).1 0,
    (melFilterbank_props 44100 2048 128 (by norm_num) (by norm_num) (by norm_num)).2.1 0 0⟩

namespace AlertManager

theorem update_preserve_config (s : AlertState) (now : ℕ) :
    (update s now).alertStartTime = s.alertStartTime ∧
      (update s now).alertDuration = s.alertDuration ∧
      (update s now).pulseOnTime = s.pulseOnTime ∧
      (update s now).pulseOffTime = s.pulseOffTime ∧
      (update s now).hapticOnly = s.hapticOnly := by
  simp only [update, stopAlert]
  split_ifs <;> simp

theorem update_active (s : AlertState) (now : ℕ) (hact : s.alertActive = true)
    (hlive : ¬ (0 < s.alertDuration ∧ s.alertDuration.toNat ≤ now - s.alertStartTime)) :
    (update s now).alertActive = true := by
  simp only [update, hact]
  split_ifs <;> simp_all

/-- While the 500 ms session is live, any sequence of updates keeps the
session active and preserves the session configuration. -/
theorem updates_invariant_500 (t0 : ℕ) (ts : List ℕ) (s : AlertState)
    (hact : s.alertActive = true) (hs : s.alertStartTime = t0)
    (hd : s.alertDuration = 500) (hT : ∀ t ∈ ts, t - t0 < 500) :
    (updates s ts).alertActive = true ∧ (updates s ts).alertStartTime = t0 ∧
      (updates s ts).alertDuration = 500 ∧
      (updates s ts).pulseOnTime = s.pulseOnTime ∧
      (updates s ts).pulseOffTime = s.pulseOffTime := by
  induction ts generalizing s with
  | nil => exact ⟨hact, hs, hd, rfl, rfl⟩
  | cons t ts ih =>
    have hp := update_preserve_config s t
    have htlt := hT t (List.mem_cons_self t ts)
    have ha : (update s t).alertActive = true := by
      refine update_active s t hact ?_
      rw [hs, hd]
      rintro ⟨-, h⟩
      omega
    have hrest := ih (update s t) ha (hp.1.trans hs) (hp.2.1.trans hd)
      (fun u hu => hT u (List.mem_cons_of_mem t hu))
    exact ⟨hrest.1, hrest.2.1, hrest.2.2.1,
      hrest.2.2.2.1.trans hp.2.2.1, hrest.2.2.2.2.trans hp.2.2.2.1⟩

/-- An update on a live session toggles the pulse phase exactly when the
current phase has lasted at least its configured duration. -/
theorem update_toggle (s : AlertState) (now : ℕ) (hact : s.alertActive = true)
    (hlive : ¬ (0 < s.alertDuration ∧ s.alertDuration.toNat ≤ now - s.alertStartTime)) :
    (update s now).pulseState =
      (if (if s.pulseState then s.pulseOnTime.toNat else s.pulseOffTime.toNat) ≤
          now - s.lastPulseTime
       then !s.pulseState else s.pulseState) := by
  simp only [update, hact]
  split_ifs <;> simp_all

theorem update_expire (s : AlertState) (now t0 : ℕ) (hact : s.alertActive = true)
    (hs : s.alertStartTime = t0) (hd : s.alertDuration = 500) (hnow : 500 ≤ now - t0) :
    (update s now).alertActive = false ∧ (update s now).buzzer = false ∧
      (update s now).vibration = false := by
  have : (0 < s.alertDuration ∧ s.alertDuration.toNat ≤ now - s.alertStartTime) := by
    rw [hs, hd]; exact ⟨by norm_num, by simpa using hnow⟩
  simp [update, hact, this, stopAlert]

/-- **C9**: after `triggerAlert(500)` at time `t0`: (a) any sequence of
`update` calls at times with elapsed time under 500 ms keeps the session
active with the fast cadence on=100 ms / off=50 ms; (b) each such live
`update` toggles the pulse phase exactly when the current phase (on/off)
has lasted its configured duration; (c) the first `update` at or after
`t0 + 500` drives both outputs inactive and clears the active flag. -/
theorem trigger500_update_behaviour (s0 : AlertState) (t0 : ℕ) :
    ((∀ ts : List ℕ, (∀ t ∈ ts, t - t0 < 500) →
      (updates (triggerAlert s0 t0 500) ts).alertActive = true ∧
        (updates (triggerAlert s0 t0 500) ts).pulseOnTime = 100 ∧
        (updates (triggerAlert s0 t0 500) ts).pulseOffTime = 50) ∧
    (∀ (ts : List ℕ) (now : ℕ), (∀ t ∈ ts, t - t0 < 500) → now - t0 < 500 →
      (update (updates (triggerAlert s0 t0 500) ts) now).alertActive = true ∧
      (update (updates (triggerAlert s0 t0 500) ts) now).pulseState =
        (if (if (updates (triggerAlert s0 t0 500) ts).pulseState then (100 : ℕ) else 50) ≤
            now - (updates (triggerAlert s0 t0 500) ts).lastPulseTime
         then !(updates (triggerAlert s0 t0 500) ts).pulseState
         else (updates (triggerAlert s0 t0 500) ts).pulseState)) ∧
    (∀ (ts : List ℕ) (now : ℕ), (∀ t ∈ ts, t - t0 < 500) → 500 ≤ now - t0 →
      (update (updates (triggerAlert s0 t0 500) ts) now).alertActive = false ∧
        (update (updates (triggerAlert s0 t0 500) ts) now).buzzer = false ∧
        (update (updates (triggerAlert s0 t0 500) ts) now).vibration = false)) := by
  have hbase : (triggerAlert s0 t0 500).alertActive = true ∧
      (triggerAlert s0 t0 500).alertStartTime = t0 ∧
      (triggerAlert s0 t0 500).alertDuration = 500 := by
    simp [triggerAlert]
  refine ⟨?_, ?_, ?_⟩
  · intro ts hT
    have h := updates_invariant_500 t0 ts _ hbase.1 hbase.2.1 hbase.2.2 hT
    refine ⟨h.1, ?_, ?_⟩
    · rw [h.2.2.2.1]; simp [triggerAlert]
    · rw [h.2.2.2.2]; simp [triggerAlert]
  · intro ts now hT hnow
    have h := updates_invariant_500 t0 ts _ hbase.1 hbase.2.1 hbase.2.2 hT
    have hlive : ¬ (0 < (updates (triggerAlert s0 t0 500) ts).alertDuration ∧
        (updates (triggerAlert s0 t0 500) ts).alertDuration.toNat ≤
          now - (updates (triggerAlert s0 t0 500) ts).alertStartTime) := by
      rw [h.2.2.1, h.2.1]
      rintro ⟨-, hc⟩
      omega
    refine ⟨update_active _ now h.1 hlive, ?_⟩
    have ht := update_toggle _ now h.1 hlive
    rw [ht, h.2.2.2.1, h.2.2.2.2]
    simp [triggerAlert]
  · intro ts now hT hnow
    have h := updates_invariant_500 t0 ts _ hbase.1 hbase.2.1 hbase.2.2 hT
    exact update_expire _ now t0 h.1 h.2.1 h.2.2.1 hnow

/-- Witness for C9: trigger at t0 = 0, no intermediate updates, one update
at t = 500 stops the session and silences both outputs. -/
theorem trigger500_update_behaviour_witness :
    (update (updates (triggerAlert initAlertState 0 500) []) 500).alertActive = false ∧
      (update (updates (triggerAlert initAlertState 0 500) []) 500).buzzer = false ∧
      (update (updates (triggerAlert initAlertState 0 500) []) 500).vibration = false :=
  (trigger500_update_behaviour initAlertState 0).2.2 [] 500 (by simp) (by norm_num)

/-- While a session with non-positive duration is active, updates keep it
active (the expiry branch requires a positive duration). -/
theorem updates_nonpos_active (ts : List ℕ) (s : AlertState)
    (hact : s.alertActive = true) (hd : s.alertDuration ≤ 0) :
    (updates s ts).alertActive = true ∧ (updates s ts).alertDuration ≤ 0 := by
  induction ts generalizing s with
  | nil => exact ⟨hact, hd⟩
  | cons t ts ih =>
    have hlive : ¬ (0 < s.alertDuration ∧ s.alertDuration.toNat ≤ t - s.alertStartTime) := by
      rintro ⟨h0, -⟩; omega
    have hp := update_preserve_config s t
    exact ih (update s t) (update_active s t hact hlive) (hp.2.1 ▸ hd)

/-- **C10**: if `triggerAlert` or `triggerHapticOnly` is called with
`durationMs ≤ 0`, the session never self-expires: after any sequence of
`update` calls at arbitrary times the active flag is still set and the next
`update` still performs cadence-driven pulse toggling; only an explicit
`stopAlert` deactivates both outputs and clears the flag. -/
theorem nonpositive_duration_no_self_expiry (s0 : AlertState) (t0 : ℕ) (d : ℤ)
    (hd : d ≤ 0) (s1 : AlertState)
    (hs1 : s1 = triggerAlert s0 t0 d ∨ s1 = triggerHapticOnly s0 t0 d) :
    ∀ ts : List ℕ,
      (updates s1 ts).alertActive = true ∧
      (∀ now : ℕ, (update (updates s1 ts) now).alertActive = true ∧
        (update (updates s1 ts) now).pulseState =
          (if (if (updates s1 ts).pulseState then (updates s1 ts).pulseOnTime.toNat
               else (updates s1 ts).pulseOffTime.toNat) ≤
              now - (updates s1 ts).lastPulseTime
           then !(updates s1 ts).pulseState else (updates s1 ts).pulseState)) ∧
      ((stopAlert (updates s1 ts)).alertActive = false ∧
        (stopAlert (updates s1 ts)).buzzer = false ∧
        (stopAlert (updates s1 ts)).vibration = false) := by
  intro ts
  have hbase : s1.alertActive = true ∧ s1.alertDuration ≤ 0 := by
    rcases hs1 with h | h <;> subst h <;>
      simp [triggerAlert, triggerHapticOnly, hd]
  have h := updates_nonpos_active ts s1 hbase.1 hbase.2
  have h2 := h.2
  have hlive : ∀ now : ℕ, ¬ (0 < (updates s1 ts).alertDuration ∧
      (updates s1 ts).alertDuration.toNat ≤ now - (updates s1 ts).alertStartTime) := by
    intro now
    rintro ⟨h0, -⟩
    omega
  refine ⟨h.1, fun now => ⟨update_active _ now h.1 (hlive now),
    update_toggle _ now h.1 (hlive now)⟩, ?_⟩
  simp [stopAlert]

/-- Witness for C10: `triggerAlert(0)` at t0 = 0, one update a million
milliseconds later: still active; an explicit stop clears everything. -/
theorem nonpositive_duration_no_self_expiry_witness :
    (updates (triggerAlert initAlertState 0 0) [1000000]).alertActive = true ∧
      (stopAlert (updates (triggerAlert initAlertState 0 0) [1000000])).alertActive = false :=
  ⟨(nonpositive_duration_no_self_expiry initAlertState 0 0 (by norm_num)
      (triggerAlert initAlertState 0 0) (Or.inl rfl) [1000000]).1,
   (nonpositive_duration_no_self_expiry initAlertState 0 0 (by norm_num)
      (triggerAlert initAlertState 0 0) (Or.inl rfl) [1000000]).2.2.1⟩

end AlertManager

end Varta
